import Mathlib

/-
Verification of the seller-apis inventory synchronizer.

The development shallowly embeds the two integration modules (the Ozon
integration in seller.py and the Yandex Market integration in market.py):
Python strings are `List Char`, Python ints are `Int`, fallible Python
operations (such as `int(...)` on a non-numeric string) return `Option`,
and the in-place mutation of the `offer_ids` list by `create_stocks` is
made explicit by returning the mutated list alongside the stock records.
-/

set_option maxRecDepth 100000

/-- Python strings are modelled as lists of characters. -/
abbrev Str := List Char

/-- Turn a Lean string literal into the model's string type. -/
def s2l (s : String) : Str := s.data

/-- Interpret a nonempty list of decimal digit characters as a natural
number; `none` if the list is empty or holds a non-digit.  Models the
digit-run core of Python `int(...)`. -/
def digitsToNat (ds : Str) : Option Nat :=
  if ds = [] then none
  else if ds.all Char.isDigit then
    some (ds.foldl (fun a c => a * 10 + (c.toNat - 48)) 0)
  else none

/-- Model of Python `int(s)` on the strings this system produces: optional
surrounding spaces, an optional single sign, then a nonempty run of
decimal digits; anything else raises `ValueError`, modelled as `none`. -/
def pyInt (s : Str) : Option Int :=
  let t := ((s.dropWhile (· = ' ')).reverse.dropWhile (· = ' ')).reverse
  match t with
  | '-' :: ds => (digitsToNat ds).map (fun n => -(n : Int))
  | '+' :: ds => (digitsToNat ds).map (fun n => (n : Int))
  | ds => (digitsToNat ds).map (fun n => (n : Int))

/-- Model of Python `price.split(".")[0]`: the part of the string strictly
before the first dot (the whole string when it has no dot). -/
def beforeDot : Str → Str
  | [] => []
  | c :: cs => if c = '.' then [] else c :: beforeDot cs

/-- seller.py `price_conversion` (lines 257-266):
`re.sub("[^0-9]", "", price.split(".")[0])` — keep the part before the
first dot, then delete every character that is not a decimal digit. -/
def price_conversion (price : Str) : Str :=
  (beforeDot price).filter Char.isDigit

/-- One row of the warehouse spreadsheet, restricted to the three columns
the reconciler reads: "Код" (product code), "Количество" (raw quantity
text) and "Цена" (raw price text).  The Python code wraps each access in
`str(...)`; the model's fields are already strings. -/
structure Watch where
  kod : Str
  kolichestvo : Str
  tsena : Str
deriving DecidableEq

/-- An Ozon stock record `{"offer_id": ..., "stock": ...}` (seller.py). -/
structure SStock where
  offer_id : Str
  stock : Int
deriving DecidableEq

/-- An Ozon price record (seller.py `create_prices`). -/
structure SPrice where
  auto_action_enabled : Str
  currency_code : Str
  offer_id : Str
  old_price : Str
  price : Str
deriving DecidableEq

/-- The quantity bucketing shared verbatim by seller.py lines 207-213 and
market.py lines 144-150: `">10"` gives 100, `"1"` gives 0, anything else
is passed to Python `int(...)` (which may raise, hence `Option`). -/
def parseCount (kolichestvo : Str) : Option Int :=
  if kolichestvo = s2l ">10" then some 100
  else if kolichestvo = s2l "1" then some 0
  else pyInt kolichestvo

/-- Model of Python `list.remove(a)`: delete the first occurrence of `a`
(comparison by equality); removing an absent element, which would raise
`ValueError` in Python, never happens at the one call site (membership is
checked immediately before) and is modelled as the identity. -/
def pyRemove : List Str → Str → List Str
  | [], _ => []
  | x :: xs, a => if x = a then xs else x :: pyRemove xs a

/-- The matched-record loop of seller.py `create_stocks` (lines 205-215):
walks the inventory; a row whose code is in the current `offer_ids` list
emits a stock record and removes the code from the list via `pyRemove`.
`none`
models the `ValueError` of `int(...)` on an unparsable quantity. -/
def sellerStocksLoop : List Watch → List SStock → List Str →
    Option (List SStock × List Str)
  | [], acc, ids => some (acc, ids)
  | w :: ws, acc, ids =>
    if w.kod ∈ ids then
      match parseCount w.kolichestvo with
      | none => none
      | some st =>
        sellerStocksLoop ws (acc ++ [{ offer_id := w.kod, stock := st }])
          (pyRemove ids w.kod)
    else sellerStocksLoop ws acc ids

/-- seller.py `create_stocks` (lines 184-218).  Returns the stock records
(matched rows first in inventory order, then a zero record for every
leftover identifier) together with the final state of the caller's
`offer_ids` list, whose in-place mutation is modelled explicitly. -/
def seller_create_stocks (watch_remnants : List Watch) (offer_ids : List Str) :
    Option (List SStock × List Str) :=
  match sellerStocksLoop watch_remnants [] offer_ids with
  | none => none
  | some (acc, rest) =>
    some (acc ++ rest.map (fun i => { offer_id := i, stock := 0 }), rest)

/-- seller.py `create_prices` (lines 221-254): one price record per
inventory row whose code is in the `offer_ids` list it is handed. -/
def seller_create_prices : List Watch → List Str → List SPrice
  | [], _ => []
  | w :: ws, offer_ids =>
    if w.kod ∈ offer_ids then
      { auto_action_enabled := s2l "UNKNOWN"
        currency_code := s2l "RUB"
        offer_id := w.kod
        old_price := s2l "0"
        price := price_conversion w.tsena } :: seller_create_prices ws offer_ids
    else seller_create_prices ws offer_ids

/-- The reconciliation sequence exactly as seller.py `main` runs it
(lines 358 and 361): `create_stocks` first, then `create_prices` reading
the SAME `offer_ids` list object, which `create_stocks` has already
emptied of every matched code. -/
def seller_reconcile (watch_remnants : List Watch) (offer_ids : List Str) :
    Option (List SStock × List SPrice) :=
  match seller_create_stocks watch_remnants offer_ids with
  | none => none
  | some (stocks, rest) => some (stocks, seller_create_prices watch_remnants rest)

/-- One element of a Yandex Market stock record's `items` array. -/
structure MStockItem where
  count : Int
  type : Str
  updatedAt : Str
deriving DecidableEq

/-- A Yandex Market stock record (market.py `create_stocks`). -/
structure MStock where
  sku : Str
  warehouseId : Str
  items : List MStockItem
deriving DecidableEq

/-- The `price` object inside a Yandex Market price record. -/
structure MPriceVal where
  value : Int
  currencyId : Str
deriving DecidableEq

/-- A Yandex Market price record (market.py `create_prices`). -/
structure MPrice where
  id : Str
  price : MPriceVal
deriving DecidableEq

/-- The matched-record loop of market.py `create_stocks` (lines 142-164):
identical control flow to the Ozon version, but the emitted record carries
the warehouse id and a timestamped `items` array.  `date` is the
`datetime.datetime.utcnow()` string computed at line 141, passed in as a
parameter of the model. -/
def marketStocksLoop (warehouse_id date : Str) :
    List Watch → List MStock → List Str → Option (List MStock × List Str)
  | [], acc, ids => some (acc, ids)
  | w :: ws, acc, ids =>
    if w.kod ∈ ids then
      match parseCount w.kolichestvo with
      | none => none
      | some st =>
        marketStocksLoop warehouse_id date ws
          (acc ++ [{ sku := w.kod, warehouseId := warehouse_id,
                     items := [{ count := st, type := s2l "FIT",
                                 updatedAt := date }] }])
          (pyRemove ids w.kod)
    else marketStocksLoop warehouse_id date ws acc ids

/-- market.py `create_stocks` (lines 127-180): matched rows first, then a
zero-count record for every leftover identifier; also returns the final
state of the mutated `offer_ids` list. -/
def market_create_stocks (watch_remnants : List Watch) (offer_ids : List Str)
    (warehouse_id date : Str) : Option (List MStock × List Str) :=
  match marketStocksLoop warehouse_id date watch_remnants [] offer_ids with
  | none => none
  | some (acc, rest) =>
    some (acc ++ rest.map (fun i =>
      { sku := i, warehouseId := warehouse_id,
        items := [{ count := 0, type := s2l "FIT", updatedAt := date }] }),
      rest)

/-- market.py `create_prices` (lines 183-209): one price record per
inventory row whose code is in `offer_ids`; the price value is
`int(price_conversion(...))`, whose possible `ValueError` makes the
result an `Option`. -/
def market_create_prices : List Watch → List Str → Option (List MPrice)
  | [], _ => some []
  | w :: ws, offer_ids =>
    if w.kod ∈ offer_ids then
      match pyInt (price_conversion w.tsena) with
      | none => none
      | some v =>
        (market_create_prices ws offer_ids).map
          (fun ps => { id := w.kod, price := { value := v, currencyId := s2l "RUR" } } :: ps)
    else market_create_prices ws offer_ids

/-- Recursion behind `divide` for a positive chunk size `k + 1`: peel off
the first `k + 1` elements, recurse on the rest.  The `fuel` argument
makes the recursion structural; every use supplies `fuel` at least the
length of the list, which makes the middle branch unreachable. -/
def divideGo (k : Nat) : Nat → List α → List (List α)
  | _, [] => []
  | 0, _ :: _ => []
  | fuel + 1, x :: xs => (x :: xs.take k) :: divideGo k fuel (xs.drop k)

/-- seller.py `divide` (lines 269-280): `for i in range(0, len(lst), n):
yield lst[i : i + n]`.  Every call site passes a positive `n`; `n = 0`
(where Python `range` would raise `ValueError`) is given the junk value
`[]` and excluded by hypothesis in every theorem below. -/
def divide (lst : List α) (n : Nat) : List (List α) :=
  match n with
  | 0 => []
  | k + 1 => divideGo k lst.length lst

/-- One page of the Ozon product-list endpoint as `get_product_list`
returns it, restricted to the fields `get_offer_ids` reads: the page's
offer ids, the running `total`, and the pagination cursor. -/
structure SellerPage where
  items : List Str
  total : Nat
  last_id : Str
deriving DecidableEq

/-- One page of the Yandex Market offer-mapping endpoint, restricted to
the entries' shop SKUs and the `paging.nextPageToken` field. -/
structure MarketPage where
  entries : List Str
  nextPageToken : Str
deriving DecidableEq

/-- The `while True` loop of seller.py `get_offer_ids` (lines 69-77) run
against a source that serves the given pages in order.  Accumulates the
items of each fetched page and stops when the page's reported `total`
equals the number of items accumulated so far.  Returns the accumulated
ids and the number of page fetches; `none` models running off the end of
the available pages. -/
def sellerEnumLoop : List SellerPage → List Str → Nat → Option (List Str × Nat)
  | [], _, _ => none
  | p :: rest, acc, fetches =>
    let acc2 := acc ++ p.items
    if p.total = acc2.length then some (acc2, fetches + 1)
    else sellerEnumLoop rest acc2 (fetches + 1)

/-- seller.py `get_offer_ids` (lines 57-81) over a paged source. -/
def seller_get_offer_ids (pages : List SellerPage) : Option (List Str × Nat) :=
  sellerEnumLoop pages [] 0

/-- The `while True` loop of market.py `get_offer_ids` (lines 113-120):
accumulates each page's entries and stops when the page's
`nextPageToken` is falsy (the empty string). -/
def marketEnumLoop : List MarketPage → List Str → Nat → Option (List Str × Nat)
  | [], _, _ => none
  | p :: rest, acc, fetches =>
    let acc2 := acc ++ p.entries
    if p.nextPageToken = [] then some (acc2, fetches + 1)
    else marketEnumLoop rest acc2 (fetches + 1)

/-- market.py `get_offer_ids` (lines 103-124) over a paged source. -/
def market_get_offer_ids (pages : List MarketPage) : Option (List Str × Nat) :=
  marketEnumLoop pages [] 0

/-- The three exception classes distinguished by the `except` clauses of
both `main` functions: `requests.exceptions.ReadTimeout`,
`requests.exceptions.ConnectionError`, and every other `Exception`
(including the `ValueError` of a failed `int(...)`). -/
inductive PyExc where
  | readTimeout
  | connectionError
  | other
deriving DecidableEq

/-- Outcome of a `main` run: finished with no error; an exception was
caught by one of the three `except` clauses (its one-line diagnostic
printed, the process still exiting normally); or an exception escaped
`main` uncaught. -/
inductive Outcome where
  | ok
  | caught (e : PyExc)
  | uncaught (e : PyExc)
deriving DecidableEq

/-- Process exit code: 0 unless an exception escapes `main`, in which
case the Python interpreter prints a traceback and exits with 1. -/
def Outcome.exitCode : Outcome → Nat
  | .uncaught _ => 1
  | _ => 0

/-- The two Yandex Market channels handled by market.py `main`. -/
inductive Channel where
  | fbs
  | dbs
deriving DecidableEq

/-- A network call made by seller.py `main`, in trace order. -/
inductive SCall where
  | enum
  | download
  | putStocks (chunk : List SStock)
  | postPrices (chunk : List SPrice)
deriving DecidableEq

/-- A network call made by market.py `main`, in trace order. -/
inductive MCall where
  | download
  | enum (c : Channel)
  | putStocks (c : Channel) (chunk : List MStock)
  | postPrices (c : Channel) (chunk : List MPrice)
deriving DecidableEq

/-- Does a market call hit the price-update endpoint? -/
def MCall.isPostPrices : MCall → Bool
  | .postPrices _ _ => true
  | _ => false

/-- Does a market call belong to the DBS channel? -/
def MCall.isDbsCall : MCall → Bool
  | .enum .dbs => true
  | .putStocks .dbs _ => true
  | .postPrices .dbs _ => true
  | _ => false

/-- Sequential batch upload (`for chunk in list(divide(...)): update(...)`):
one call per chunk, in order; the first failing chunk raises, aborting
the remaining chunks.  Returns the calls actually made and the exception,
if any. -/
def runChunks (call : List β → γ) (f : List β → Except PyExc Unit) :
    List (List β) → List γ × Option PyExc
  | [] => ([], none)
  | c :: cs =>
    match f c with
    | .error e => ([call c], some e)
    | .ok _ =>
      let (t, r) := runChunks call f cs
      (call c :: t, r)

/-- Oracle for one seller.py `main` run: the outcome of each external
collaborator call (the full catalog enumeration, the inventory download,
and each stock/price chunk upload). -/
structure SellerEnv where
  enum : Except PyExc (List Str)
  download : Except PyExc (List Watch)
  putStocks : List SStock → Except PyExc Unit
  postPrices : List SPrice → Except PyExc Unit

/-- seller.py `main` (lines 348-369).  Everything from the catalog
enumeration on — including `download_stock()` at line 357 — sits inside
the `try` block, so any exception lands in one of the three `except`
clauses.  `create_prices` at line 361 reads the same `offer_ids` list
that `create_stocks` at line 358 has already mutated. -/
def seller_main (env : SellerEnv) : List SCall × Outcome :=
  match env.enum with
  | .error e => ([SCall.enum], .caught e)
  | .ok offer_ids =>
    match env.download with
    | .error e => ([SCall.enum, SCall.download], .caught e)
    | .ok ws =>
      match seller_create_stocks ws offer_ids with
      | none => ([SCall.enum, SCall.download], .caught PyExc.other)
      | some (stocks, rest) =>
        let (t1, r1) := runChunks SCall.putStocks env.putStocks (divide stocks 100)
        match r1 with
        | some e => ([SCall.enum, SCall.download] ++ t1, .caught e)
        | none =>
          let prices := seller_create_prices ws rest
          let (t2, r2) := runChunks SCall.postPrices env.postPrices (divide prices 900)
          match r2 with
          | some e => ([SCall.enum, SCall.download] ++ t1 ++ t2, .caught e)
          | none => ([SCall.enum, SCall.download] ++ t1 ++ t2, .ok)

/-- Oracle for one market.py `main` run: the outcome of the inventory
download, of each channel's catalog enumeration, and of each stock chunk
upload, plus the configured warehouse ids and the timestamp taken by
`create_stocks`. -/
structure MarketEnv where
  download : Except PyExc (List Watch)
  enum : Channel → Except PyExc (List Str)
  putStocks : Channel → List MStock → Except PyExc Unit
  warehouseFbs : Str
  warehouseDbs : Str
  now : Str

/-- One channel's body inside the `try` block of market.py `main`
(lines 270-277 for FBS, 279-286 for DBS): enumerate, reconcile stocks,
upload stock chunks of 2000.  The closing `upload_prices(...)` call is an
`async def` invoked WITHOUT `await` (lines 277 and 286): Python merely
constructs a coroutine object and never runs its body, so it performs no
network call and raises nothing — the model therefore adds no trace
entry for it. -/
def marketChannel (env : MarketEnv) (ws : List Watch) (c : Channel)
    (wid : Str) : List MCall × Option PyExc :=
  match env.enum c with
  | .error e => ([MCall.enum c], some e)
  | .ok ids =>
    match market_create_stocks ws ids wid env.now with
    | none => ([MCall.enum c], some PyExc.other)
    | some (stocks, _) =>
      let (t, r) := runChunks (MCall.putStocks c) (env.putStocks c) (divide stocks 2000)
      (MCall.enum c :: t, r)

/-- market.py `main` (lines 256-292).  `download_stock()` at line 268 is
executed BEFORE the `try` block, so its exceptions escape uncaught; both
channels then run inside the single `try`, FBS first, DBS second. -/
def market_main (env : MarketEnv) : List MCall × Outcome :=
  match env.download with
  | .error e => ([MCall.download], .uncaught e)
  | .ok ws =>
    let (t1, r1) := marketChannel env ws Channel.fbs env.warehouseFbs
    match r1 with
    | some e => (MCall.download :: t1, .caught e)
    | none =>
      let (t2, r2) := marketChannel env ws Channel.dbs env.warehouseDbs
      match r2 with
      | some e => (MCall.download :: (t1 ++ t2), .caught e)
      | none => (MCall.download :: (t1 ++ t2), .ok)

/-- Decidable statement of "every inventory row that MATCHES during the
`create_stocks` loop has a parseable quantity": follows the loop's own
control flow (a row is matched iff its code is in the identifier list as
mutated so far). -/
def matchedParseOk : List Watch → List Str → Bool
  | [], _ => true
  | w :: ws, ids =>
    if w.kod ∈ ids then
      (parseCount w.kolichestvo).isSome && matchedParseOk ws (pyRemove ids w.kod)
    else matchedParseOk ws ids

/-- The stock value that `create_stocks` (Ozon) computes for the first
inventory row, when that row matches. -/
def sellerFirstStock (w : Watch) (ids : List Str) : Option Int :=
  match seller_create_stocks [w] ids with
  | none => none
  | some (s, _) => s.head?.map SStock.stock

/-- The stock value that `create_stocks` (Yandex Market) computes for the
first inventory row, when that row matches. -/
def marketFirstStock (w : Watch) (ids : List Str) (wid date : Str) : Option Int :=
  match market_create_stocks [w] ids wid date with
  | none => none
  | some (s, _) => s.head?.bind (fun m => m.items.head?.map MStockItem.count)

/-- The inventory of the spec's end-to-end scenario. -/
def c1Inventory : List Watch :=
  [⟨s2l "A1", s2l ">10", s2l "500.00 р."⟩, ⟨s2l "A2", s2l "1", s2l "100.00 р."⟩]

/-- The known identifiers of the spec's end-to-end scenario. -/
def c1OfferIds : List Str := [s2l "A1", s2l "A2", s2l "A3"]

/-- First mock Ozon page for the C8 witness. -/
def c8sp1 : SellerPage := ⟨List.replicate 200 (s2l "a"), 450, s2l "L1"⟩

/-- Second mock Ozon page for the C8 witness. -/
def c8sp2 : SellerPage := ⟨List.replicate 200 (s2l "a"), 450, s2l "L2"⟩

/-- Third (final) mock Ozon page for the C8 witness. -/
def c8sp3 : SellerPage := ⟨List.replicate 50 (s2l "a"), 450, s2l ""⟩

/-- First mock Market page for the C8 witness. -/
def c8mp1 : MarketPage := ⟨List.replicate 200 (s2l "a"), s2l "T"⟩

/-- Second mock Market page for the C8 witness. -/
def c8mp2 : MarketPage := ⟨List.replicate 200 (s2l "a"), s2l "T"⟩

/-- Third (final) mock Market page for the C8 witness: empty next token. -/
def c8mp3 : MarketPage := ⟨List.replicate 50 (s2l "a"), []⟩

/-- Inventory row used by the C2 and C10 witnesses. -/
def wW : Watch := ⟨s2l "A1", s2l ">10", s2l "5.00 р."⟩

/-- Identifier list used by the C2 and C10 witnesses. -/
def wIds : List Str := [s2l "A1", s2l "B2"]

/-- Inventory used by the C3, C4 and C5 environments. -/
def mWs : List Watch := [⟨s2l "A1", s2l ">10", s2l "500.00 р."⟩]

/-- A fully successful market run for the C3 counterexample. -/
def c3Env : MarketEnv :=
  { download := Except.ok mWs
    enum := fun _ => Except.ok [s2l "A1"]
    putStocks := fun _ _ => Except.ok ()
    warehouseFbs := s2l "WF"
    warehouseDbs := s2l "WD"
    now := s2l "D" }

/-- Market run with a failing FBS enumeration, for the C4 counterexample. -/
def c4Env : MarketEnv :=
  { download := Except.ok mWs
    enum := fun c => match c with
      | Channel.fbs => Except.error PyExc.connectionError
      | Channel.dbs => Except.ok [s2l "A1"]
    putStocks := fun _ _ => Except.ok ()
    warehouseFbs := s2l "WF"
    warehouseDbs := s2l "WD"
    now := s2l "D" }

/-- Fully successful market run used by the C4 and C5 witnesses. -/
def mOkEnv : MarketEnv :=
  { download := Except.ok mWs
    enum := fun _ => Except.ok [s2l "A1"]
    putStocks := fun _ _ => Except.ok ()
    warehouseFbs := s2l "WF"
    warehouseDbs := s2l "WD"
    now := s2l "D" }

/-- Market run whose inventory download raises, for the C5 counterexample. -/
def c5Env : MarketEnv :=
  { download := Except.error PyExc.readTimeout
    enum := fun _ => Except.ok []
    putStocks := fun _ _ => Except.ok ()
    warehouseFbs := s2l "WF"
    warehouseDbs := s2l "WD"
    now := s2l "D" }

lemma beforeDot_eq_takeWhile (p : Str) :
    beforeDot p = p.takeWhile (fun c => !(c == '.')) := by
  induction p with
  | nil => rfl
  | cons c cs ih =>
    by_cases h : c = '.'
    · simp [beforeDot, List.takeWhile_cons, h]
    · simp [beforeDot, List.takeWhile_cons, h, ih]

/-- C7 — Price normalization: for every price string, `price_conversion`
returns the portion of the string before the first "." with every
non-digit character removed; in particular "5'990.00 руб." maps to
"5990", "100.00" to "100", and "1,234.50 $" to "1234". -/
theorem c7_price_normalization :
    (∀ p : Str, price_conversion p =
      (p.takeWhile (fun c => !(c == '.'))).filter Char.isDigit)
  ∧ price_conversion (s2l "5" ++ Char.ofNat 39 :: s2l "990.00 руб.") = s2l "5990"
  ∧ price_conversion (s2l "100.00") = s2l "100"
  ∧ price_conversion (s2l "1,234.50 $") = s2l "1234" := by
  refine ⟨fun p => ?_, by decide, by decide, by decide⟩
  simp [price_conversion, beforeDot_eq_takeWhile]

/-- C6 — Quantity bucketing: for every inventory record whose code is a
known identifier, both platforms' `create_stocks` compute the stock
quantity as 100 when the raw quantity string is ">10", as 0 when it is
"1", and as the direct integer parse of the raw value otherwise. -/
theorem c6_quantity_bucketing (kod q tsena : Str) (ids : List Str)
    (wid date : Str) (h : kod ∈ ids) :
    (q = s2l ">10" →
      sellerFirstStock ⟨kod, q, tsena⟩ ids = some 100 ∧
      marketFirstStock ⟨kod, q, tsena⟩ ids wid date = some 100)
  ∧ (q = s2l "1" →
      sellerFirstStock ⟨kod, q, tsena⟩ ids = some 0 ∧
      marketFirstStock ⟨kod, q, tsena⟩ ids wid date = some 0)
  ∧ (∀ n : Int, q ≠ s2l ">10" → q ≠ s2l "1" → pyInt q = some n →
      sellerFirstStock ⟨kod, q, tsena⟩ ids = some n ∧
      marketFirstStock ⟨kod, q, tsena⟩ ids wid date = some n) := by
  refine ⟨fun hq => ?_, fun hq => ?_, fun n h1 h2 hp => ?_⟩ <;>
    constructor <;>
      simp [sellerFirstStock, marketFirstStock, seller_create_stocks,
        market_create_stocks, sellerStocksLoop, marketStocksLoop, parseCount,
        h, (by decide : ¬(s2l "1" = s2l ">10")), *]

/-- C6 witness: concrete instance with raw quantity "7" parsing to 7 on
both platforms. -/
theorem c6_quantity_bucketing_witness :
    s2l "A" ∈ [s2l "A"] ∧ pyInt (s2l "7") = some 7 ∧
    (sellerFirstStock ⟨s2l "A", s2l "7", []⟩ [s2l "A"] = some 7 ∧
     marketFirstStock ⟨s2l "A", s2l "7", []⟩ [s2l "A"] [] [] = some 7) :=
  ⟨by decide, by decide,
    (c6_quantity_bucketing (s2l "A") (s2l "7") [] [s2l "A"] [] []
        (by decide)).2.2 7 (by decide) (by decide) (by decide)⟩

/-- C1 — End-to-end Ozon orchestration at the spec's scenario: running
`create_stocks` then `create_prices` in sequence on the one `offer_ids`
list, as seller.py `main` does, produces the claimed stock collection
[{A1,100},{A2,0},{A3,0}] but an EMPTY price collection — `create_stocks`
has removed every matched code from `offer_ids`, so `create_prices`
matches nothing.  The claimed price entries (A1 → "500", A2 → "100") are
exactly what `create_prices` yields on the identifier list as originally
enumerated, which main no longer has. -/
theorem c1_seller_reconciliation_eval :
    seller_reconcile c1Inventory c1OfferIds =
      some ([⟨s2l "A1", 100⟩, ⟨s2l "A2", 0⟩, ⟨s2l "A3", 0⟩], [])
  ∧ seller_create_prices c1Inventory c1OfferIds =
      [⟨s2l "UNKNOWN", s2l "RUB", s2l "A1", s2l "0", s2l "500"⟩,
       ⟨s2l "UNKNOWN", s2l "RUB", s2l "A2", s2l "0", s2l "100"⟩] := by
  constructor <;> decide

lemma divideGo_nil (k fuel : Nat) : divideGo (α := α) k fuel [] = [] := by
  cases fuel <;> rfl

lemma divideGo_join (k : Nat) : ∀ (fuel : Nat) (l : List α),
    l.length ≤ fuel → (divideGo k fuel l).flatten = l := by
  intro fuel
  induction fuel with
  | zero =>
    intro l h
    cases l with
    | nil => simp [divideGo]
    | cons x xs => simp at h
  | succ f ih =>
    intro l h
    cases l with
    | nil => simp [divideGo]
    | cons x xs =>
      have hx : (xs.drop k).length ≤ f := by
        simp only [List.length_drop]
        simp only [List.length_cons] at h
        omega
      simp only [divideGo, List.flatten_cons, ih (xs.drop k) hx, List.cons_append,
        List.take_append_drop]

lemma divideGo_length (k : Nat) : ∀ (fuel : Nat) (l : List α),
    l.length ≤ fuel → (divideGo k fuel l).length = (l.length + k) / (k + 1) := by
  intro fuel
  induction fuel with
  | zero =>
    intro l h
    cases l with
    | nil => simp [divideGo, Nat.div_eq_of_lt (by omega : k < k + 1)]
    | cons x xs => simp at h
  | succ f ih =>
    intro l h
    cases l with
    | nil => simp [divideGo, Nat.div_eq_of_lt (by omega : k < k + 1)]
    | cons x xs =>
      have hlen : xs.length ≤ f := by simp only [List.length_cons] at h; omega
      have hx : (xs.drop k).length ≤ f := by simp only [List.length_drop]; omega
      simp only [divideGo, List.length_cons, ih _ hx, List.length_drop]
      have h2 : xs.length + 1 + k = xs.length + (k + 1) := by omega
      rw [h2, Nat.add_div_right _ (by omega)]
      by_cases hk : k ≤ xs.length
      · have h3 : xs.length - k + k = xs.length := by omega
        rw [h3]
      · have h3 : xs.length - k = 0 := by omega
        rw [h3]
        simp [Nat.div_eq_of_lt (by omega : k < k + 1),
          Nat.div_eq_of_lt (by omega : xs.length < k + 1)]

lemma divideGo_mem_length_le (k : Nat) : ∀ (fuel : Nat) (l : List α),
    ∀ c ∈ divideGo k fuel l, c.length ≤ k + 1 := by
  intro fuel
  induction fuel with
  | zero =>
    intro l c hc
    cases l <;> simp [divideGo] at hc
  | succ f ih =>
    intro l c hc
    cases l with
    | nil => simp [divideGo] at hc
    | cons x xs =>
      rcases List.mem_cons.1 hc with rfl | hc2
      · simp only [List.length_cons, List.length_take]
        omega
      · exact ih _ c hc2

lemma divideGo_eq_nil_iff (k : Nat) : ∀ (fuel : Nat) (l : List α),
    l.length ≤ fuel → (divideGo k fuel l = [] ↔ l = []) := by
  intro fuel l h
  cases l with
  | nil => cases fuel <;> simp [divideGo]
  | cons x xs =>
    cases fuel with
    | zero => simp at h
    | succ f => simp [divideGo]

lemma divideGo_dropLast (k : Nat) : ∀ (fuel : Nat) (l : List α),
    l.length ≤ fuel → ∀ c ∈ (divideGo k fuel l).dropLast, c.length = k + 1 := by
  intro fuel
  induction fuel with
  | zero =>
    intro l h c hc
    cases l with
    | nil => simp [divideGo] at hc
    | cons x xs => simp at h
  | succ f ih =>
    intro l h c hc
    cases l with
    | nil => simp [divideGo] at hc
    | cons x xs =>
      have hlen : xs.length ≤ f := by simp only [List.length_cons] at h; omega
      have hx : (xs.drop k).length ≤ f := by simp only [List.length_drop]; omega
      by_cases hnil : xs.drop k = []
      · rw [show divideGo k (f + 1) (x :: xs) =
            (x :: xs.take k) :: divideGo k f (xs.drop k) from rfl, hnil,
          divideGo_nil] at hc
        simp at hc
      · have hrest : divideGo k f (xs.drop k) ≠ [] := by
          rw [Ne, divideGo_eq_nil_iff k f _ hx]
          exact hnil
        obtain ⟨y, ys, hys⟩ := List.exists_cons_of_ne_nil hrest
        rw [show divideGo k (f + 1) (x :: xs) =
            (x :: xs.take k) :: divideGo k f (xs.drop k) from rfl, hys] at hc
        simp only [List.dropLast_cons₂, List.mem_cons] at hc
        rcases hc with rfl | hc2
        · have hgt : k < xs.length := by
            by_contra hle
            push_neg at hle
            exact hnil (List.drop_eq_nil_of_le hle)
          simp only [List.length_cons, List.length_take]
          omega
        · exact ih _ hx c (by rw [hys]; exact hc2)

lemma divideGo_getLast (k : Nat) : ∀ (fuel : Nat) (l : List α),
    l.length ≤ fuel → ∀ c, (divideGo k fuel l).getLast? = some c →
      (c.length < k + 1 ↔ ¬((k + 1) ∣ l.length)) := by
  intro fuel
  induction fuel with
  | zero =>
    intro l h c hc
    cases l with
    | nil => simp [divideGo] at hc
    | cons x xs => simp at h
  | succ f ih =>
    intro l h c hc
    cases l with
    | nil => simp [divideGo] at hc
    | cons x xs =>
      have hlen : xs.length ≤ f := by simp only [List.length_cons] at h; omega
      have hx : (xs.drop k).length ≤ f := by simp only [List.length_drop]; omega
      by_cases hnil : xs.drop k = []
      · have hxk : xs.length ≤ k := by
          by_contra hgt
          push_neg at hgt
          rw [List.drop_eq_nil_iff] at hnil
          omega
        rw [show divideGo k (f + 1) (x :: xs) =
            (x :: xs.take k) :: divideGo k f (xs.drop k) from rfl, hnil,
          divideGo_nil] at hc
        simp only [List.getLast?_singleton, Option.some.injEq] at hc
        subst hc
        simp only [List.length_cons, List.length_take, List.length_cons]
        constructor
        · intro hlt hdvd
          have := Nat.le_of_dvd (by omega) hdvd
          omega
        · intro hnd
          by_contra hge
          have : xs.length + 1 = k + 1 := by omega
          exact hnd (this ▸ dvd_refl (k + 1))
      · have hrest : divideGo k f (xs.drop k) ≠ [] := by
          rw [Ne, divideGo_eq_nil_iff k f _ hx]
          exact hnil
        obtain ⟨y, ys, hys⟩ := List.exists_cons_of_ne_nil hrest
        rw [show divideGo k (f + 1) (x :: xs) =
            (x :: xs.take k) :: divideGo k f (xs.drop k) from rfl, hys,
          List.getLast?_cons_cons, ← hys] at hc
        have hgt : k < xs.length := by
          by_contra hle
          push_neg at hle
          exact hnil (List.drop_eq_nil_of_le hle)
        rw [ih _ hx c hc]
        simp only [List.length_drop, List.length_cons]
        have h4 : xs.length + 1 = (xs.length - k) + (k + 1) := by omega
        rw [h4, Nat.dvd_add_self_right]

/-- C9 — Batching: for every list and every n > 0, `divide` yields exactly
⌈len/n⌉ chunks, each of length n except possibly the last (shorter
exactly when the length is not a multiple of n), and concatenating the
chunks in order reproduces the list. -/
theorem c9_divide_batching (lst : List α) (n : Nat) (hn : 0 < n) :
    (divide lst n).length = (lst.length + n - 1) / n
  ∧ (divide lst n).flatten = lst
  ∧ (∀ c ∈ divide lst n, c.length ≤ n)
  ∧ (∀ c ∈ (divide lst n).dropLast, c.length = n)
  ∧ (∀ c, (divide lst n).getLast? = some c →
      (c.length < n ↔ ¬(n ∣ lst.length))) := by
  obtain ⟨k, rfl⟩ : ∃ k, n = k + 1 := ⟨n - 1, by omega⟩
  refine ⟨?_, divideGo_join k lst.length lst le_rfl,
    fun c hc => divideGo_mem_length_le k lst.length lst c hc,
    divideGo_dropLast k lst.length lst le_rfl,
    divideGo_getLast k lst.length lst le_rfl⟩
  rw [show divide lst (k + 1) = divideGo k lst.length lst from rfl,
    divideGo_length k lst.length lst le_rfl,
    show lst.length + (k + 1) - 1 = lst.length + k from by omega]

/-- C9 witness: the batching properties evaluated at [1,2,3,4,5] with
chunk size 2. -/
theorem c9_divide_batching_witness : 0 < 2 ∧
    ((divide [1, 2, 3, 4, 5] 2).length = (([1, 2, 3, 4, 5] : List Nat).length + 2 - 1) / 2
  ∧ (divide [1, 2, 3, 4, 5] 2).flatten = [1, 2, 3, 4, 5]
  ∧ (∀ c ∈ divide [1, 2, 3, 4, 5] 2, c.length ≤ 2)
  ∧ (∀ c ∈ (divide [1, 2, 3, 4, 5] 2).dropLast, c.length = 2)
  ∧ (∀ c, (divide [1, 2, 3, 4, 5] 2).getLast? = some c →
      (c.length < 2 ↔ ¬(2 ∣ ([1, 2, 3, 4, 5] : List Nat).length)))) :=
  ⟨by decide, c9_divide_batching [1, 2, 3, 4, 5] 2 (by decide)⟩

/-- C8 — Pagination: for any paged source of exactly 3 pages containing
200, 200 and 50 identifiers, where the source signals exhaustion after
the third page (empty next-page token for Marketplace B; reported total
450 for Marketplace A), `get_offer_ids` terminates after exactly 3 page
fetches and returns all 450 identifiers in page order. -/
theorem c8_pagination (p1 p2 p3 : SellerPage) (q1 q2 q3 : MarketPage)
    (hp1 : p1.items.length = 200) (hp2 : p2.items.length = 200)
    (hp3 : p3.items.length = 50)
    (ht1 : p1.total = 450) (ht2 : p2.total = 450) (ht3 : p3.total = 450)
    (hq1 : q1.entries.length = 200) (hq2 : q2.entries.length = 200)
    (hq3 : q3.entries.length = 50)
    (hn1 : q1.nextPageToken ≠ []) (hn2 : q2.nextPageToken ≠ [])
    (hn3 : q3.nextPageToken = []) :
    seller_get_offer_ids [p1, p2, p3] =
      some (p1.items ++ p2.items ++ p3.items, 3)
  ∧ (p1.items ++ p2.items ++ p3.items).length = 450
  ∧ market_get_offer_ids [q1, q2, q3] =
      some (q1.entries ++ q2.entries ++ q3.entries, 3)
  ∧ (q1.entries ++ q2.entries ++ q3.entries).length = 450 := by
  refine ⟨?_, by simp [hp1, hp2, hp3], ?_, by simp [hq1, hq2, hq3]⟩
  · simp [seller_get_offer_ids, sellerEnumLoop, ht1, ht2, ht3, hp1, hp2, hp3,
      List.length_append, List.append_assoc]
  · simp [market_get_offer_ids, marketEnumLoop, hn1, hn2, hn3,
      List.append_assoc]

/-- C8 witness: the pagination property evaluated on a concrete mock
3-page source for each platform. -/
theorem c8_pagination_witness :
    c8sp1.items.length = 200 ∧ c8mp3.nextPageToken = [] ∧
    (seller_get_offer_ids [c8sp1, c8sp2, c8sp3] =
        some (c8sp1.items ++ c8sp2.items ++ c8sp3.items, 3)
     ∧ (c8sp1.items ++ c8sp2.items ++ c8sp3.items).length = 450
     ∧ market_get_offer_ids [c8mp1, c8mp2, c8mp3] =
        some (c8mp1.entries ++ c8mp2.entries ++ c8mp3.entries, 3)
     ∧ (c8mp1.entries ++ c8mp2.entries ++ c8mp3.entries).length = 450) :=
  ⟨by decide, by decide,
    c8_pagination c8sp1 c8sp2 c8sp3 c8mp1 c8mp2 c8mp3 (by decide) (by decide)
      (by decide) (by decide) (by decide) (by decide) (by decide) (by decide)
      (by decide) (by decide) (by decide) (by decide)⟩

lemma pyRemove_cons_perm : ∀ {l : List Str} {a : Str}, a ∈ l →
    (a :: pyRemove l a).Perm l := by
  intro l
  induction l with
  | nil => intro a h; simp at h
  | cons x xs ih =>
    intro a h
    by_cases hx : x = a
    · subst hx
      simp [pyRemove]
    · have hmem : a ∈ xs := by
        rcases List.mem_cons.1 h with rfl | hm
        · exact absurd rfl hx
        · exact hm
      simp only [pyRemove, if_neg hx]
      exact (List.Perm.swap x a _).trans ((ih hmem).cons x)

lemma pyRemove_subset : ∀ (l : List Str) (a x : Str), x ∈ pyRemove l a → x ∈ l := by
  intro l
  induction l with
  | nil => intro a x h; simp [pyRemove] at h
  | cons y ys ih =>
    intro a x h
    by_cases hy : y = a
    · simp only [pyRemove, if_pos hy] at h
      exact List.mem_cons_of_mem y h
    · simp only [pyRemove, if_neg hy] at h
      rcases List.mem_cons.1 h with rfl | h2
      · exact List.mem_cons_self x ys
      · exact List.mem_cons_of_mem y (ih a x h2)

lemma pyRemove_nodup : ∀ {l : List Str} (a : Str), l.Nodup → (pyRemove l a).Nodup := by
  intro l
  induction l with
  | nil => intro a h; simp [pyRemove]
  | cons x xs ih =>
    intro a h
    rw [List.nodup_cons] at h
    by_cases hx : x = a
    · simp only [pyRemove, if_pos hx]
      exact h.2
    · simp only [pyRemove, if_neg hx]
      rw [List.nodup_cons]
      exact ⟨fun hc => h.1 (pyRemove_subset xs a x hc), ih a h.2⟩

lemma pyRemove_eq_filter : ∀ {l : List Str} {a : Str}, l.Nodup →
    pyRemove l a = l.filter (fun x => decide (x ≠ a)) := by
  intro l
  induction l with
  | nil => intro a h; rfl
  | cons x xs ih =>
    intro a h
    rw [List.nodup_cons] at h
    by_cases hx : x = a
    · subst hx
      rw [List.filter_cons_of_neg (by simp)]
      simp only [pyRemove, if_pos rfl]
      symm
      apply List.filter_eq_self.mpr
      intro y hy
      have hne : y ≠ x := fun hyx => h.1 (hyx ▸ hy)
      simpa using hne
    · rw [List.filter_cons_of_pos (by simpa using hx)]
      simp only [pyRemove, if_neg hx]
      rw [ih h.2]

lemma sellerStocksLoop_perm : ∀ (ws : List Watch) (acc : List SStock)
    (ids : List Str) (acc' : List SStock) (rest : List Str),
    sellerStocksLoop ws acc ids = some (acc', rest) →
    (acc'.map SStock.offer_id ++ rest).Perm (acc.map SStock.offer_id ++ ids) := by
  intro ws
  induction ws with
  | nil =>
    intro acc ids acc' rest h
    simp only [sellerStocksLoop, Option.some.injEq, Prod.mk.injEq] at h
    obtain ⟨rfl, rfl⟩ := h
    exact List.Perm.refl _
  | cons w ws ih =>
    intro acc ids acc' rest h
    simp only [sellerStocksLoop] at h
    by_cases hm : w.kod ∈ ids
    · rw [if_pos hm] at h
      cases hp : parseCount w.kolichestvo with
      | none => rw [hp] at h; simp at h
      | some st =>
        rw [hp] at h
        refine (ih _ _ _ _ h).trans ?_
        rw [List.map_append, List.append_assoc]
        refine List.Perm.append_left _ ?_
        simpa using pyRemove_cons_perm hm
    · rw [if_neg hm] at h
      exact ih _ _ _ _ h

lemma sellerStocksLoop_rest : ∀ (ws : List Watch) (ids : List Str)
    (acc acc' : List SStock) (rest : List Str), ids.Nodup →
    sellerStocksLoop ws acc ids = some (acc', rest) →
    rest = ids.filter (fun i => decide (i ∉ ws.map Watch.kod)) := by
  intro ws
  induction ws with
  | nil =>
    intro ids acc acc' rest hnd h
    simp only [sellerStocksLoop, Option.some.injEq, Prod.mk.injEq] at h
    obtain ⟨-, rfl⟩ := h
    simp
  | cons w ws ih =>
    intro ids acc acc' rest hnd h
    simp only [sellerStocksLoop] at h
    by_cases hm : w.kod ∈ ids
    · rw [if_pos hm] at h
      cases hp : parseCount w.kolichestvo with
      | none => rw [hp] at h; simp at h
      | some st =>
        rw [hp] at h
        rw [ih _ _ _ _ (pyRemove_nodup w.kod hnd) h, pyRemove_eq_filter hnd,
          List.filter_filter, List.map_cons]
        apply List.filter_congr
        intro a ha
        by_cases h1 : a = w.kod <;> by_cases h2 : a ∈ ws.map Watch.kod <;>
          simp [h1, h2]
    · rw [if_neg hm] at h
      rw [ih _ _ _ _ hnd h, List.map_cons]
      apply List.filter_congr
      intro a ha
      have hne : a ≠ w.kod := fun hh => hm (hh ▸ ha)
      simp [hne]

lemma sellerStocksLoop_isSome : ∀ (ws : List Watch) (ids : List Str)
    (acc : List SStock), matchedParseOk ws ids = true →
    (sellerStocksLoop ws acc ids).isSome := by
  intro ws
  induction ws with
  | nil => intro ids acc h; simp [sellerStocksLoop]
  | cons w ws ih =>
    intro ids acc h
    simp only [sellerStocksLoop]
    simp only [matchedParseOk] at h
    by_cases hm : w.kod ∈ ids
    · rw [if_pos hm] at h ⊢
      rw [Bool.and_eq_true] at h
      obtain ⟨h1, h2⟩ := h
      cases hp : parseCount w.kolichestvo with
      | none => rw [hp] at h1; simp at h1
      | some st => exact ih _ _ h2
    · rw [if_neg hm] at h ⊢
      exact ih _ _ h

lemma marketStocksLoop_perm (wid date : Str) : ∀ (ws : List Watch)
    (acc : List MStock) (ids : List Str) (acc' : List MStock) (rest : List Str),
    marketStocksLoop wid date ws acc ids = some (acc', rest) →
    (acc'.map MStock.sku ++ rest).Perm (acc.map MStock.sku ++ ids) := by
  intro ws
  induction ws with
  | nil =>
    intro acc ids acc' rest h
    simp only [marketStocksLoop, Option.some.injEq, Prod.mk.injEq] at h
    obtain ⟨rfl, rfl⟩ := h
    exact List.Perm.refl _
  | cons w ws ih =>
    intro acc ids acc' rest h
    simp only [marketStocksLoop] at h
    by_cases hm : w.kod ∈ ids
    · rw [if_pos hm] at h
      cases hp : parseCount w.kolichestvo with
      | none => rw [hp] at h; simp at h
      | some st =>
        rw [hp] at h
        refine (ih _ _ _ _ h).trans ?_
        rw [List.map_append, List.append_assoc]
        refine List.Perm.append_left _ ?_
        simpa using pyRemove_cons_perm hm
    · rw [if_neg hm] at h
      exact ih _ _ _ _ h

lemma marketStocksLoop_rest (wid date : Str) : ∀ (ws : List Watch)
    (ids : List Str) (acc acc' : List MStock) (rest : List Str), ids.Nodup →
    marketStocksLoop wid date ws acc ids = some (acc', rest) →
    rest = ids.filter (fun i => decide (i ∉ ws.map Watch.kod)) := by
  intro ws
  induction ws with
  | nil =>
    intro ids acc acc' rest hnd h
    simp only [marketStocksLoop, Option.some.injEq, Prod.mk.injEq] at h
    obtain ⟨-, rfl⟩ := h
    simp
  | cons w ws ih =>
    intro ids acc acc' rest hnd h
    simp only [marketStocksLoop] at h
    by_cases hm : w.kod ∈ ids
    · rw [if_pos hm] at h
      cases hp : parseCount w.kolichestvo with
      | none => rw [hp] at h; simp at h
      | some st =>
        rw [hp] at h
        rw [ih _ _ _ _ (pyRemove_nodup w.kod hnd) h, pyRemove_eq_filter hnd,
          List.filter_filter, List.map_cons]
        apply List.filter_congr
        intro a ha
        by_cases h1 : a = w.kod <;> by_cases h2 : a ∈ ws.map Watch.kod <;>
          simp [h1, h2]
    · rw [if_neg hm] at h
      rw [ih _ _ _ _ hnd h, List.map_cons]
      apply List.filter_congr
      intro a ha
      have hne : a ≠ w.kod := fun hh => hm (hh ▸ ha)
      simp [hne]

lemma marketStocksLoop_isSome (wid date : Str) : ∀ (ws : List Watch)
    (ids : List Str) (acc : List MStock), matchedParseOk ws ids = true →
    (marketStocksLoop wid date ws acc ids).isSome := by
  intro ws
  induction ws with
  | nil => intro ids acc h; simp [marketStocksLoop]
  | cons w ws ih =>
    intro ids acc h
    simp only [marketStocksLoop]
    simp only [matchedParseOk] at h
    by_cases hm : w.kod ∈ ids
    · rw [if_pos hm] at h ⊢
      rw [Bool.and_eq_true] at h
      obtain ⟨h1, h2⟩ := h
      cases hp : parseCount w.kolichestvo with
      | none => rw [hp] at h1; simp at h1
      | some st => exact ih _ _ h2
    · rw [if_neg hm] at h ⊢
      exact ih _ _ h

lemma seller_create_prices_mem : ∀ (ws : List Watch) (ids : List Str)
    (p : SPrice), p ∈ seller_create_prices ws ids → p.offer_id ∈ ids := by
  intro ws
  induction ws with
  | nil => intro ids p hp; simp [seller_create_prices] at hp
  | cons w ws ih =>
    intro ids p hp
    simp only [seller_create_prices] at hp
    by_cases hm : w.kod ∈ ids
    · rw [if_pos hm] at hp
      rcases List.mem_cons.1 hp with rfl | hp2
      · simpa using hm
      · exact ih ids p hp2
    · rw [if_neg hm] at hp
      exact ih ids p hp

lemma market_create_prices_mem : ∀ (ws : List Watch) (ids : List Str)
    (ps : List MPrice) (p : MPrice), market_create_prices ws ids = some ps →
    p ∈ ps → p.id ∈ ids := by
  intro ws
  induction ws with
  | nil =>
    intro ids ps p h hp
    simp only [market_create_prices, Option.some.injEq] at h
    subst h
    simp at hp
  | cons w ws ih =>
    intro ids ps p h hp
    simp only [market_create_prices] at h
    by_cases hm : w.kod ∈ ids
    · rw [if_pos hm] at h
      cases hv : pyInt (price_conversion w.tsena) with
      | none => rw [hv] at h; simp at h
      | some v =>
        rw [hv] at h
        cases hq : market_create_prices ws ids with
        | none => rw [hq] at h; simp at h
        | some ps' =>
          rw [hq] at h
          simp only [Option.map_some', Option.some.injEq] at h
          subst h
          rcases List.mem_cons.1 hp with rfl | hp2
          · simpa using hm
          · exact ih ids ps' p hq hp2
    · rw [if_neg hm] at h
      exact ih ids ps p h hp

/-- C2 — Reconciliation completeness: for every duplicate-free list of
known identifiers and every inventory whose matched quantity fields
parse, `create_stocks` (on either platform) returns a collection with
exactly one stock entry per known identifier (its identifiers are a
permutation of the known list), unmatched identifiers defaulted to
quantity zero; and `create_prices` (on either platform) emits no entry
for any inventory record whose code is not in the identifier list it is
given. -/
theorem c2_reconciliation_completeness (ws : List Watch) (ids : List Str)
    (wid date : Str) (idsP idsQ : List Str)
    (hnd : ids.Nodup) (hok : matchedParseOk ws ids = true) :
    (∃ s rest, seller_create_stocks ws ids = some (s, rest)
      ∧ (s.map SStock.offer_id).Perm ids
      ∧ ∀ i ∈ ids, i ∉ ws.map Watch.kod →
          ({ offer_id := i, stock := 0 } : SStock) ∈ s)
  ∧ (∃ s rest, market_create_stocks ws ids wid date = some (s, rest)
      ∧ (s.map MStock.sku).Perm ids
      ∧ ∀ i ∈ ids, i ∉ ws.map Watch.kod →
          ({ sku := i, warehouseId := wid,
             items := [{ count := 0, type := s2l "FIT", updatedAt := date }] } :
            MStock) ∈ s)
  ∧ (∀ p ∈ seller_create_prices ws idsP, p.offer_id ∈ idsP)
  ∧ (∀ ps, market_create_prices ws idsQ = some ps → ∀ p ∈ ps, p.id ∈ idsQ) := by
  refine ⟨?_, ?_, fun p hp => seller_create_prices_mem ws idsP p hp,
    fun ps hps p hp => market_create_prices_mem ws idsQ ps p hps hp⟩
  · obtain ⟨⟨acc, rest⟩, heq⟩ :=
      Option.isSome_iff_exists.mp (sellerStocksLoop_isSome ws ids [] hok)
    have hperm := sellerStocksLoop_perm ws [] ids acc rest heq
    have hrest := sellerStocksLoop_rest ws ids [] acc rest hnd heq
    refine ⟨acc ++ rest.map (fun i => { offer_id := i, stock := 0 }), rest,
      by unfold seller_create_stocks; rw [heq], ?_, ?_⟩
    · rw [List.map_append, List.map_map]
      rw [show (SStock.offer_id ∘ fun i => ({ offer_id := i, stock := 0 } : SStock)) = id
        from rfl, List.map_id]
      simpa using hperm
    · intro i hi hni
      refine List.mem_append_right _ ?_
      refine List.mem_map.mpr ⟨i, ?_, rfl⟩
      rw [hrest]
      exact List.mem_filter.mpr ⟨hi, by simpa using hni⟩
  · obtain ⟨⟨acc, rest⟩, heq⟩ :=
      Option.isSome_iff_exists.mp (marketStocksLoop_isSome wid date ws ids [] hok)
    have hperm := marketStocksLoop_perm wid date ws [] ids acc rest heq
    have hrest := marketStocksLoop_rest wid date ws ids [] acc rest hnd heq
    refine ⟨acc ++ rest.map (fun i =>
        { sku := i, warehouseId := wid,
          items := [{ count := 0, type := s2l "FIT", updatedAt := date }] }),
      rest, by unfold market_create_stocks; rw [heq], ?_, ?_⟩
    · rw [List.map_append, List.map_map]
      rw [show (MStock.sku ∘ fun i =>
          ({ sku := i, warehouseId := wid,
             items := [{ count := 0, type := s2l "FIT", updatedAt := date }] } :
            MStock)) = id from rfl, List.map_id]
      simpa using hperm
    · intro i hi hni
      refine List.mem_append_right _ ?_
      refine List.mem_map.mpr ⟨i, ?_, rfl⟩
      rw [hrest]
      exact List.mem_filter.mpr ⟨hi, by simpa using hni⟩

/-- C2 witness: the completeness property evaluated at one matched and
one unmatched identifier. -/
theorem c2_reconciliation_completeness_witness :
    wIds.Nodup ∧ matchedParseOk [wW] wIds = true ∧
    ((∃ s rest, seller_create_stocks [wW] wIds = some (s, rest)
       ∧ (s.map SStock.offer_id).Perm wIds
       ∧ ∀ i ∈ wIds, i ∉ [wW].map Watch.kod →
           ({ offer_id := i, stock := 0 } : SStock) ∈ s)
   ∧ (∃ s rest, market_create_stocks [wW] wIds (s2l "W") (s2l "D") = some (s, rest)
       ∧ (s.map MStock.sku).Perm wIds
       ∧ ∀ i ∈ wIds, i ∉ [wW].map Watch.kod →
           ({ sku := i, warehouseId := s2l "W",
              items := [{ count := 0, type := s2l "FIT", updatedAt := s2l "D" }] } :
             MStock) ∈ s)
   ∧ (∀ p ∈ seller_create_prices [wW] wIds, p.offer_id ∈ wIds)
   ∧ (∀ ps, market_create_prices [wW] wIds = some ps → ∀ p ∈ ps, p.id ∈ wIds)) :=
  ⟨by decide, by decide,
    c2_reconciliation_completeness [wW] wIds (s2l "W") (s2l "D") wIds wIds
      (by decide) (by decide)⟩

/-- C10 — Frame effect of `create_stocks` on its `offer_ids` argument: on
either platform, the list handed back (the caller's mutated list) holds
exactly the identifiers that matched no inventory record, in their
original order; consequently `create_prices` in seller.py `main` reads
only the unmatched identifiers. -/
theorem c10_offer_ids_mutation (ws : List Watch) (ids : List Str)
    (wid date : Str) (hnd : ids.Nodup) (hok : matchedParseOk ws ids = true) :
    (∃ s, seller_create_stocks ws ids =
        some (s, ids.filter (fun i => decide (i ∉ ws.map Watch.kod))))
  ∧ (∃ s, market_create_stocks ws ids wid date =
        some (s, ids.filter (fun i => decide (i ∉ ws.map Watch.kod))))
  ∧ (∀ pr, seller_reconcile ws ids = some pr →
        pr.2 = seller_create_prices ws
          (ids.filter (fun i => decide (i ∉ ws.map Watch.kod)))) := by
  obtain ⟨⟨acc, rest⟩, heq⟩ :=
    Option.isSome_iff_exists.mp (sellerStocksLoop_isSome ws ids [] hok)
  obtain ⟨⟨acc2, rest2⟩, heq2⟩ :=
    Option.isSome_iff_exists.mp (marketStocksLoop_isSome wid date ws ids [] hok)
  have hrest := sellerStocksLoop_rest ws ids [] acc rest hnd heq
  have hrest2 := marketStocksLoop_rest wid date ws ids [] acc2 rest2 hnd heq2
  subst hrest
  subst hrest2
  have hcs : seller_create_stocks ws ids =
      some (acc ++ (ids.filter (fun i => decide (i ∉ ws.map Watch.kod))).map
          (fun i => { offer_id := i, stock := 0 }),
        ids.filter (fun i => decide (i ∉ ws.map Watch.kod))) := by
    unfold seller_create_stocks
    rw [heq]
  refine ⟨⟨_, hcs⟩, ⟨_, by unfold market_create_stocks; rw [heq2]⟩, ?_⟩
  intro pr hpr
  unfold seller_reconcile at hpr
  rw [hcs] at hpr
  simp only [Option.some.injEq] at hpr
  subst hpr
  rfl

/-- C10 witness: the mutated list at one matched and one unmatched
identifier is exactly the unmatched one. -/
theorem c10_offer_ids_mutation_witness :
    wIds.Nodup ∧ matchedParseOk [wW] wIds = true ∧
    ((∃ s, seller_create_stocks [wW] wIds =
        some (s, wIds.filter (fun i => decide (i ∉ [wW].map Watch.kod))))
   ∧ (∃ s, market_create_stocks [wW] wIds (s2l "W") (s2l "D") =
        some (s, wIds.filter (fun i => decide (i ∉ [wW].map Watch.kod))))
   ∧ (∀ pr, seller_reconcile [wW] wIds = some pr →
        pr.2 = seller_create_prices [wW]
          (wIds.filter (fun i => decide (i ∉ [wW].map Watch.kod))))) :=
  ⟨by decide, by decide,
    c10_offer_ids_mutation [wW] wIds (s2l "W") (s2l "D") (by decide) (by decide)⟩

lemma runChunks_forall (P : γ → Prop) (call : List β → γ)
    (f : List β → Except PyExc Unit) (hall : ∀ b, P (call b)) :
    ∀ cs, ∀ x ∈ (runChunks call f cs).1, P x := by
  intro cs
  induction cs with
  | nil => intro x hx; simp [runChunks] at hx
  | cons c cs ih =>
    intro x hx
    simp only [runChunks] at hx
    cases hf : f c with
    | error e =>
      rw [hf] at hx
      simp at hx
      subst hx
      exact hall c
    | ok u =>
      rw [hf] at hx
      rcases hrc : runChunks call f cs with ⟨t, r⟩
      rw [hrc] at hx
      simp only [List.mem_cons] at hx
      rcases hx with rfl | hx2
      · exact hall c
      · exact ih x (by rw [hrc]; exact hx2)

lemma marketChannel_calls (env : MarketEnv) (ws : List Watch) (c : Channel)
    (wid : Str) : ∀ x ∈ (marketChannel env ws c wid).1,
    x = MCall.enum c ∨ ∃ ch, x = MCall.putStocks c ch := by
  intro x hx
  unfold marketChannel at hx
  cases he : env.enum c with
  | error e =>
    simp only [he] at hx
    simp at hx
    exact Or.inl hx
  | ok ids =>
    simp only [he] at hx
    cases hm : market_create_stocks ws ids wid env.now with
    | none =>
      simp only [hm] at hx
      simp at hx
      exact Or.inl hx
    | some pr =>
      obtain ⟨stocks, rest⟩ := pr
      rcases hrc : runChunks (MCall.putStocks c) (env.putStocks c)
          (divide stocks 2000) with ⟨t, r⟩
      simp only [hm, hrc] at hx
      simp only [List.mem_cons] at hx
      rcases hx with rfl | hx2
      · exact Or.inl rfl
      · exact Or.inr (runChunks_forall (fun y => ∃ ch, y = MCall.putStocks c ch)
          (MCall.putStocks c) (env.putStocks c) (fun b => ⟨b, rfl⟩)
          (divide stocks 2000) x (by rw [hrc]; exact hx2))

lemma marketChannel_enum_mem (env : MarketEnv) (ws : List Watch) (c : Channel)
    (wid : Str) : MCall.enum c ∈ (marketChannel env ws c wid).1 := by
  unfold marketChannel
  cases he : env.enum c with
  | error e => simp
  | ok ids =>
    cases hm : market_create_stocks ws ids wid env.now with
    | none => simp [hm]
    | some pr =>
      obtain ⟨stocks, rest⟩ := pr
      rcases hrc : runChunks (MCall.putStocks c) (env.putStocks c)
          (divide stocks 2000) with ⟨t, r⟩
      simp [hm, hrc]

lemma market_main_no_postPrices (env : MarketEnv) :
    ∀ x ∈ (market_main env).1, x.isPostPrices = false := by
  intro x hx
  unfold market_main at hx
  cases hd : env.download with
  | error e =>
    simp only [hd] at hx
    simp at hx
    subst hx
    rfl
  | ok ws =>
    simp only [hd] at hx
    rcases h1 : marketChannel env ws Channel.fbs env.warehouseFbs with ⟨t1, r1⟩
    simp only [h1] at hx
    have habs1 : ∀ y ∈ t1, MCall.isPostPrices y = false := by
      intro y hy
      rcases marketChannel_calls env ws Channel.fbs env.warehouseFbs y
          (by rw [h1]; exact hy) with rfl | ⟨ch, rfl⟩ <;> rfl
    cases r1 with
    | some e =>
      simp only [List.mem_cons] at hx
      rcases hx with rfl | hx2
      · rfl
      · exact habs1 x hx2
    | none =>
      rcases h2 : marketChannel env ws Channel.dbs env.warehouseDbs with ⟨t2, r2⟩
      simp only [h2] at hx
      have habs2 : ∀ y ∈ t2, MCall.isPostPrices y = false := by
        intro y hy
        rcases marketChannel_calls env ws Channel.dbs env.warehouseDbs y
            (by rw [h2]; exact hy) with rfl | ⟨ch, rfl⟩ <;> rfl
      cases r2 with
      | some e =>
        simp only [List.mem_cons, List.mem_append] at hx
        rcases hx with rfl | hx2 | hx3
        · rfl
        · exact habs1 x hx2
        · exact habs2 x hx3
      | none =>
        simp only [List.mem_cons, List.mem_append] at hx
        rcases hx with rfl | hx2 | hx3
        · rfl
        · exact habs1 x hx2
        · exact habs2 x hx3

/-- C3 counterexample: a completely successful market.py `main` run whose
call trace holds not one price-update call, even though the channel's
reconciled price records exist — refuting the claim that the price-update
endpoint is invoked.  The `upload_prices` coroutine is created at
lines 277 and 286 but never awaited, so its body never runs. -/
theorem c3_counterexample :
    (market_main c3Env).2 = Outcome.ok
  ∧ (market_main c3Env).1.all (fun x => !x.isPostPrices) = true
  ∧ market_create_prices mWs [s2l "A1"] =
      some [{ id := s2l "A1", price := { value := 500, currencyId := s2l "RUR" } }] := by
  refine ⟨by decide, by decide, by decide⟩

/-- C3 (amended) — in every run of market.py `main`, the price-update
endpoint is never invoked: `upload_prices` is an `async def` called
without `await`, so the coroutine is constructed and dropped, and only
enumeration, download and stock-upload calls appear in the trace. -/
theorem c3_market_never_uploads_prices (env : MarketEnv) :
    (market_main env).1.all (fun x => !x.isPostPrices) = true := by
  rw [List.all_eq_true]
  intro x hx
  simp [market_main_no_postPrices env x hx]

/-- C4 counterexample: a run in which the FBS enumeration raises a
connection error; the trace holds no DBS call at all — the DBS channel's
enumeration and uploads are NOT still performed, refuting the claim. -/
theorem c4_counterexample :
    (market_main c4Env).2 = Outcome.caught PyExc.connectionError
  ∧ (market_main c4Env).1.contains (MCall.enum Channel.dbs) = false
  ∧ (market_main c4Env).1.all (fun x => !x.isDbsCall) = true := by
  refine ⟨by decide, by decide, by decide⟩

/-- C4 (amended) — both channels sit inside the one `try` block of
market.py `main`: when the whole FBS channel body (enumeration, stock
reconciliation and stock uploads) finishes without error, the DBS
enumeration is performed; but when any FBS step raises, the exception
jumps to the `except` clauses and no DBS call is made. -/
theorem c4_channel_dependence (env : MarketEnv) (ws : List Watch)
    (hd : env.download = Except.ok ws) :
    ((marketChannel env ws Channel.fbs env.warehouseFbs).2 = none →
      MCall.enum Channel.dbs ∈ (market_main env).1)
  ∧ (∀ e, (marketChannel env ws Channel.fbs env.warehouseFbs).2 = some e →
      (market_main env).2 = Outcome.caught e
      ∧ (market_main env).1.all (fun x => !x.isDbsCall) = true) := by
  constructor
  · intro hfbs
    unfold market_main
    rcases h1 : marketChannel env ws Channel.fbs env.warehouseFbs with ⟨t1, r1⟩
    rw [h1] at hfbs
    simp only at hfbs
    subst hfbs
    rcases h2 : marketChannel env ws Channel.dbs env.warehouseDbs with ⟨t2, r2⟩
    have hmem : MCall.enum Channel.dbs ∈ t2 := by
      have := marketChannel_enum_mem env ws Channel.dbs env.warehouseDbs
      rw [h2] at this
      exact this
    cases r2 with
    | some e => simp [hd, h1, h2, hmem]
    | none => simp [hd, h1, h2, hmem]
  · intro e hfbs
    unfold market_main
    rcases h1 : marketChannel env ws Channel.fbs env.warehouseFbs with ⟨t1, r1⟩
    rw [h1] at hfbs
    simp only at hfbs
    subst hfbs
    have ht1 : ∀ y ∈ t1, MCall.isDbsCall y = false := by
      intro y hy
      rcases marketChannel_calls env ws Channel.fbs env.warehouseFbs y
          (by rw [h1]; exact hy) with rfl | ⟨ch, rfl⟩ <;> rfl
    constructor
    · simp [hd, h1]
    · simp only [hd, h1]
      rw [List.all_eq_true]
      intro x hx
      simp only [List.mem_cons] at hx
      rcases hx with rfl | hx2
      · rfl
      · simp [ht1 x hx2]

/-- C4 witness: on a successful run, the DBS enumeration does appear in
the trace. -/
theorem c4_channel_dependence_witness :
    mOkEnv.download = Except.ok mWs ∧
    ((marketChannel mOkEnv mWs Channel.fbs mOkEnv.warehouseFbs).2 = none →
      MCall.enum Channel.dbs ∈ (market_main mOkEnv).1) :=
  ⟨rfl, (c4_channel_dependence mOkEnv mWs rfl).1⟩

/-- C5 counterexample: in market.py `main` the inventory download
(line 268) runs BEFORE the `try` block, so a read-timeout there escapes
uncaught and the process exits with a nonzero code — refuting the claim
that every exception anywhere in the flow of either main is caught and
the process exits with code 0. -/
theorem c5_counterexample :
    (market_main c5Env).2 = Outcome.uncaught PyExc.readTimeout
  ∧ (market_main c5Env).2.exitCode = 1 := by
  refine ⟨by decide, by decide⟩

/-- C5 (amended) — seller.py `main` catches every exception of its flow
(its `try` covers everything including the download) and always exits 0;
market.py `main` does the same PROVIDED the inventory download succeeds —
only the pre-`try` download can produce an uncaught exception. -/
theorem c5_error_containment :
    (∀ env : SellerEnv, (seller_main env).2.exitCode = 0)
  ∧ (∀ (env : MarketEnv) (ws : List Watch), env.download = Except.ok ws →
      (market_main env).2.exitCode = 0) := by
  constructor
  · intro env
    unfold seller_main
    cases he : env.enum with
    | error e => simp [he, Outcome.exitCode]
    | ok ids =>
      cases hdl : env.download with
      | error e => simp [he, hdl, Outcome.exitCode]
      | ok ws =>
        cases hcs : seller_create_stocks ws ids with
        | none => simp [he, hdl, hcs, Outcome.exitCode]
        | some pr =>
          obtain ⟨stocks, rest⟩ := pr
          rcases h1 : runChunks SCall.putStocks env.putStocks (divide stocks 100)
            with ⟨t1, r1⟩
          cases r1 with
          | some e => simp [he, hdl, hcs, h1, Outcome.exitCode]
          | none =>
            rcases h2 : runChunks SCall.postPrices env.postPrices
                (divide (seller_create_prices ws rest) 900) with ⟨t2, r2⟩
            cases r2 with
            | some e => simp [he, hdl, hcs, h1, h2, Outcome.exitCode]
            | none => simp [he, hdl, hcs, h1, h2, Outcome.exitCode]
  · intro env ws hd
    unfold market_main
    rw [hd]
    rcases h1 : marketChannel env ws Channel.fbs env.warehouseFbs with ⟨t1, r1⟩
    cases r1 with
    | some e => simp [h1, Outcome.exitCode]
    | none =>
      rcases h2 : marketChannel env ws Channel.dbs env.warehouseDbs with ⟨t2, r2⟩
      cases r2 with
      | some e => simp [h1, h2, Outcome.exitCode]
      | none => simp [h1, h2, Outcome.exitCode]

/-- C5 witness: a successful download leads to exit code 0. -/
theorem c5_error_containment_witness :
    mOkEnv.download = Except.ok mWs ∧ (market_main mOkEnv).2.exitCode = 0 :=
  ⟨rfl, c5_error_containment.2 mOkEnv mWs rfl⟩
